import Mathlib

/-!
Shallow embedding of the portfolio-valuation routine of this repository
(file src/main/portfolios.py, functions get_portfolio_data and
load_static_data, plus the load_data variant in src/streamlit/portfolios.py).

Modelling conventions:
* Monetary amounts, quantities and prices are rationals (the source uses
  Python floats; the claims under study are about exact aggregation
  structure, not rounding of binary floats).
* Dates are naturals counting days from a fixed Monday, so a date d is a
  weekday exactly when d % 7 < 5, matching index.dayofweek < 5.
* A possibly-missing price cell (NaN in pandas) is an Option.
* A pandas DataFrame of close prices is a Frame: an index of dates plus a
  list of named columns, each a list of cells aligned with the index.
* The market-data fetch is a parameter: some f is a fetched table, none is
  the path where yf.download raised and the except branch installed an
  empty DataFrame.
-/

namespace Portfolios

/-- One row of the purchases sheet of portfolioGC.xlsx: columns ticker,
amount, price, bought_on. -/
structure Purchase where
  ticker : String
  amount : ℚ
  price : ℚ
  bought_on : Nat
deriving DecidableEq

/-- A close-price table: index of dates and named columns aligned with it. -/
structure Frame where
  index : List Nat
  series : List (String × List (Option ℚ))
deriving DecidableEq

/-- One row of the nav_series list built by the valuation loop. -/
structure NavPoint where
  date : Nat
  nav : ℚ
  invested : ℚ
deriving DecidableEq

/-- A nav row after post-processing, with the cumulative returns column. -/
structure NavPointR where
  date : Nat
  nav : ℚ
  invested : ℚ
  cumret : ℚ
deriving DecidableEq

/-- One row of the holdings_snapshot table. -/
structure Holding where
  ticker : String
  amount : ℚ
  current_price : ℚ
  market_value : ℚ
  cost_basis_total : ℚ
  avg_entry_price : ℚ
  weight : ℚ
  unrealized_pnl : ℚ
  return_pct : ℚ
deriving DecidableEq

/-- str.strip() of pandas: drop leading and trailing whitespace. -/
def stripStr (s : String) : String :=
  String.mk ((((s.data.dropWhile Char.isWhitespace).reverse).dropWhile Char.isWhitespace).reverse)

/-- Ledger ingestion, lines 113-122 of src/main/portfolios.py: read the
purchases sheet, parse dates, return None when empty, and strip the ticker
strings in place.  No sorting and no positivity checks appear in the code. -/
def ingestPurchases (raw : List Purchase) : Option (List Purchase) :=
  if raw = [] then none
  else some (raw.map (fun r => { r with ticker := stripStr r.ticker }))

/-- pd.date_range(start, end, freq=B): every weekday d with s ≤ d ≤ e. -/
def bdays (s e : Nat) : List Nat :=
  ((List.range (e + 1 - s)).map (fun k => k + s)).filter (fun d => d % 7 < 5)

/-- The ticker alias applied to the ledger, line 154: replace GC=F by GOLD. -/
def renamePurchases (ps : List Purchase) : List Purchase :=
  ps.map (fun p => { p with ticker := if p.ticker = "GC=F" then "GOLD" else p.ticker })

/-- The ticker alias applied to the fetched table, lines 152-153: rename the
column GC=F to GOLD (a no-op when the column is absent, as in the source). -/
def renameFrame (f : Frame) : Frame :=
  { f with series := f.series.map (fun nc => (if nc.1 = "GC=F" then "GOLD" else nc.1, nc.2)) }

/-- Helper for dedupFirst: drop every element already seen. -/
def dedupAux (seen : List String) : List String → List String
  | [] => []
  | x :: xs => if x ∈ seen then dedupAux seen xs else x :: dedupAux (x :: seen) xs

/-- purchases.unique(): the tickers in order of first occurrence. -/
def dedupFirst (l : List String) : List String :=
  dedupAux [] l

/-- One iteration of the fallback loop of lines 158-163: when ticker t has
no column yet, install a constant column at the price of the first ledger
row for t (match.iloc[0] on the unsorted ledger). -/
def fallbackStep (ps : List Purchase) (acc : Frame) (t : String) : Frame :=
  if acc.series.any (fun nc => nc.1 = t) then acc
  else
    match ps.find? (fun p => p.ticker = t) with
    | some pu =>
        { acc with series := acc.series ++ [(t, acc.index.map (fun _ => some pu.price))] }
    | none => acc

/-- Lines 158-163: for each referenced ticker absent from the fetched
columns, install a constant column equal to the first recorded purchase
price of that ticker. -/
def addFallback (ps : List Purchase) (f : Frame) : Frame :=
  (dedupFirst (ps.map (fun p => p.ticker))).foldl (fallbackStep ps) f

/-- Series.ffill: propagate the last seen value forward over missing cells. -/
def ffillCol (carry : Option ℚ) : List (Option ℚ) → List (Option ℚ)
  | [] => []
  | none :: xs => carry :: ffillCol carry xs
  | some x :: xs => some x :: ffillCol (some x) xs

/-- Series.bfill: propagate the next seen value backward over missing cells. -/
def bfillCol (c : List (Option ℚ)) : List (Option ℚ) :=
  (ffillCol none c.reverse).reverse

/-- Line 165: market_data.ffill().bfill(), column by column. -/
def fillFrame (f : Frame) : Frame :=
  { f with series := f.series.map (fun nc => (nc.1, bfillCol (ffillCol none nc.2))) }

/-- Line 166: keep only the rows whose date has dayofweek < 5. -/
def filterWeekdays (f : Frame) : Frame :=
  { index := f.index.filter (fun d => d % 7 < 5),
    series := f.series.map (fun nc =>
      (nc.1, ((f.index.zip nc.2).filter (fun pr => pr.1 % 7 < 5)).map Prod.snd)) }

/-- purchases.bought_on.min() on a nonempty ledger (0 on an empty one,
which the source rules out before reaching this point). -/
def firstPurchase : List Purchase → Nat
  | [] => 0
  | [p] => p.bought_on
  | p :: q :: ps => Nat.min p.bought_on (firstPurchase (q :: ps))

/-- market_data.empty: some axis has length zero. -/
def isEmptyFrame (f : Frame) : Bool :=
  f.index.isEmpty || f.series.isEmpty

/-- Price Series Resolution, lines 130-166: take the fetch outcome (none
models the except branch that installs an empty DataFrame), substitute the
business-day calendar when the table is empty, apply the GC=F alias, add
per-ticker constant fallback columns, forward- then backward-fill, and
restrict to weekdays. -/
def resolveSeries (ps : List Purchase) (today : Nat) (fetched : Option Frame) : Frame :=
  let md0 : Frame := match fetched with
    | none => ⟨[], []⟩
    | some f => f
  let md1 : Frame := if isEmptyFrame md0 then ⟨bdays (firstPurchase ps) today, []⟩ else md0
  let md2 := renameFrame md1
  let ps2 := renamePurchases ps
  filterWeekdays (fillFrame (addFallback ps2 md2))

/-- The price of ticker t in row position i of the table: the cell is
present and not NaN exactly when this is some.  Implements the membership
and isna test of line 189. -/
def colPrice (f : Frame) (t : String) (i : Nat) : Option ℚ :=
  match f.series.find? (fun nc => nc.1 = t) with
  | some nc => nc.2.getD i none
  | none => none

/-- One iteration of the valuation loop, lines 171-195: select the
purchases bought on or before d; an empty selection emits zeros, otherwise
nav sums price-times-quantity over the tickers whose price cell is present,
and invested sums purchase-price-times-quantity over all of them. -/
def navPointAt (ps : List Purchase) (f : Frame) (i : Nat) (d : Nat) : NavPoint :=
  let active := ps.filter (fun p => p.bought_on ≤ d)
  if active = [] then ⟨d, 0, 0⟩
  else
    ⟨d,
     (active.map (fun p =>
        match colPrice f p.ticker i with
        | some pr => pr * p.amount
        | none => 0)).sum,
     (active.map (fun p => p.price * p.amount)).sum⟩

/-- The full nav_series list: one NavPoint per row of the resolved table. -/
def navSeries (ps : List Purchase) (f : Frame) : List NavPoint :=
  f.index.enum.map (fun pr => navPointAt ps f pr.1 pr.2)

/-- Post-processing, lines 197-217: keep the rows with invested > 0,
prepend a synthetic inception row at the first kept date with nav and
invested both equal to the first kept invested amount, and compute the
cumulative returns column as (nav - invested) / invested; when no row has
invested > 0 the rows are kept as they are with cumulative returns 0. -/
def anchorNav (nav : List NavPoint) : List NavPointR :=
  let real := nav.filter (fun p => 0 < p.invested)
  match real with
  | [] => nav.map (fun p => ⟨p.date, p.nav, p.invested, 0⟩)
  | q :: rest =>
      (⟨q.date, q.invested, q.invested⟩ :: q :: rest).map
        (fun p => ⟨p.date, p.nav, p.invested, (p.nav - p.invested) / p.invested⟩)

/-- market_data.iloc[-1][t] followed by dropna: the last cell of column t,
missing when the column is absent, empty, or ends in NaN. -/
def colLast (f : Frame) (t : String) : Option ℚ :=
  match f.series.find? (fun nc => nc.1 = t) with
  | some nc => (nc.2.getLast?).getD none
  | none => none

/-- Rounding to two decimal places (the source rounds return_pct with
pandas round; the exact float tie-breaking mode is immaterial here). -/
def round2 (x : ℚ) : ℚ := (round (x * 100) : ℤ) / 100

/-- A holdings row before the derived columns are attached. -/
structure PreHolding where
  ticker : String
  amount : ℚ
  current_price : ℚ
  market_value : ℚ
  cost_basis_total : ℚ
deriving DecidableEq

/-- Lines 220-236: group the purchases by ticker, attach the latest price,
and drop the tickers whose latest price is missing.  The source groups via
pandas groupby, whose key order does not affect any property stated below,
so first-occurrence order is used. -/
def preHoldings (ps : List Purchase) (f : Frame) : List PreHolding :=
  (dedupFirst (ps.map (fun p => p.ticker))).filterMap (fun t =>
    match colLast f t with
    | none => none
    | some cp =>
        let rows := ps.filter (fun p => p.ticker = t)
        let amt := (rows.map (fun p => p.amount)).sum
        some ⟨t, amt, cp, amt * cp,
              (rows.map (fun p => p.amount * p.price)).sum⟩)

/-- Lines 238-245: attach average entry price, weight, unrealized PnL and
rounded return percentage to each valued ticker. -/
def holdingsSnapshot (ps : List Purchase) (f : Frame) : List Holding :=
  let pre := preHoldings ps f
  let totalMV := (pre.map (fun h => h.market_value)).sum
  pre.map (fun h =>
    { ticker := h.ticker,
      amount := h.amount,
      current_price := h.current_price,
      market_value := h.market_value,
      cost_basis_total := h.cost_basis_total,
      avg_entry_price := h.cost_basis_total / h.amount,
      weight := h.market_value / totalMV * 100,
      unrealized_pnl := h.market_value - h.cost_basis_total,
      return_pct := round2 ((h.market_value - h.cost_basis_total) / h.cost_basis_total * 100) })

/-- get_portfolio_data end to end on already-parsed inputs: none models the
(None, None, None) returns (empty ledger, or the catch-all except branch
reached when iloc[-1] is taken on an empty resolved index). -/
def getPortfolioData (purchases : List Purchase) (today : Nat) (fetched : Option Frame) :
    Option (List NavPointR × List Holding) :=
  if purchases = [] then none
  else
    let md := resolveSeries purchases today fetched
    if md.index = [] then none
    else
      let ps2 := renamePurchases purchases
      some (anchorNav (navSeries ps2 md), holdingsSnapshot ps2 md)

/-- A spreadsheet cell as seen by the static-data loader: a number, a
string, or a missing value (NaN). -/
inductive Cell where
  | num (q : ℚ)
  | str (s : String)
  | na
deriving DecidableEq

/-- A pandas column read from Excel has object dtype exactly when it holds
at least one string cell. -/
def isObjectCol (c : List Cell) : Bool :=
  c.any (fun x => match x with | .str _ => true | _ => false)

/-- Line 89: df.win.map(YES to 1, NO to 0).fillna(0) on an object column;
every value outside the mapping, numbers included, becomes NaN and then 0. -/
def mapWin (c : List Cell) : List Cell :=
  c.map (fun x =>
    match x with
    | .str s => if s = "YES" then Cell.num 1 else if s = "NO" then Cell.num 0 else Cell.num 0
    | _ => Cell.num 0)

/-- pd.to_numeric(col, errors=coerce).fillna(0), with the numeral parser of
pandas abstracted as the parameter parse. -/
def coerceCell (parse : String → Option ℚ) (x : Cell) : Cell :=
  match x with
  | .num q => Cell.num q
  | .str s => Cell.num ((parse s).getD 0)
  | .na => Cell.num 0

/-- Line 91: the columns subjected to numeric coercion. -/
def numericCols : List String :=
  ["netprofit", "equity used", "returns on equity", "leverage used", "win",
   "cumulative returns", "cumulative return"]

/-- The per-column transformation of load_static_data, lines 85-94: the
YES/NO mapping on an object-typed win column, then numeric coercion with
zero fill on every listed column that is present. -/
def processCol (parse : String → Option ℚ) (n : String) (c : List Cell) : List Cell :=
  let c1 := if n = "win" && isObjectCol c then mapWin c else c
  if n ∈ numericCols then c1.map (coerceCell parse) else c1

/-- load_static_data over a whole sheet (a list of named columns), with the
final rename of cumulative return to cumulative returns, lines 96-97. -/
def processSheet (parse : String → Option ℚ) (sheet : List (String × List Cell)) :
    List (String × List Cell) :=
  (sheet.map (fun nc => (nc.1, processCol parse nc.1 nc.2))).map
    (fun nc => (if nc.1 = "cumulative return" then "cumulative returns" else nc.1, nc.2))

/-! Helper lemmas about the embedded operations. -/

/-- Summing the matched products equals summing over the purchases whose
price cell is present. -/
theorem sum_match_eq_filter (l : List Purchase) (g : Purchase → Option ℚ) :
    (l.map (fun p =>
        match g p with
        | some pr => pr * p.amount
        | none => 0)).sum
      = ((l.filter (fun p => (g p).isSome)).map
          (fun p => (g p).getD 0 * p.amount)).sum := by
  induction l with
  | nil => rfl
  | cons x xs ih =>
      cases h : g x with
      | none => simpa [List.filter_cons, h] using ih
      | some pr => simpa [List.filter_cons, h] using congrArg (fun s => pr * x.amount + s) ih

/-- A sum of products over a filtered purchase list is monotone in the
filter when every term is nonnegative. -/
theorem sum_filter_mono (l : List Purchase) (p q : Purchase → Bool) (g : Purchase → ℚ)
    (hg : ∀ x ∈ l, 0 ≤ g x) (hpq : ∀ x, p x = true → q x = true) :
    ((l.filter p).map g).sum ≤ ((l.filter q).map g).sum := by
  induction l with
  | nil => exact le_rfl
  | cons x xs ih =>
      have hgx : 0 ≤ g x := hg x (List.mem_cons_self x xs)
      have ih2 := ih (fun y hy => hg y (List.mem_cons_of_mem x hy))
      by_cases hp : p x = true
      · have hq := hpq x hp
        simpa [List.filter_cons, hp, hq] using add_le_add_left ih2 (g x)
      · have hp2 : p x = false := by simpa using hp
        by_cases hq : q x = true
        · simp only [List.filter_cons, hp2, hq, if_true, if_false, List.map_cons,
            List.sum_cons]
          exact ih2.trans (le_add_of_nonneg_left hgx)
        · have hq2 : q x = false := by simpa using hq
          simpa [List.filter_cons, hp2, hq2] using ih2

/-- Every term of a mapped nonnegative function gives a nonnegative sum. -/
theorem sum_map_nonneg (l : List Purchase) (g : Purchase → ℚ)
    (hg : ∀ x ∈ l, 0 ≤ g x) : 0 ≤ (l.map g).sum := by
  induction l with
  | nil => simp
  | cons x xs ih =>
      simp only [List.map_cons, List.sum_cons]
      exact add_nonneg (hg x (List.mem_cons_self x xs))
        (ih (fun y hy => hg y (List.mem_cons_of_mem x hy)))

/-- Membership in the deduplication helper. -/
theorem mem_dedupAux (l : List String) (seen : List String) (x : String) :
    x ∈ dedupAux seen l ↔ x ∈ l ∧ x ∉ seen := by
  induction l generalizing seen with
  | nil => simp [dedupAux]
  | cons y ys ih =>
      by_cases hy : y ∈ seen
      · rw [dedupAux, if_pos hy, ih]
        constructor
        · rintro ⟨hx, hnx⟩
          exact ⟨List.mem_cons_of_mem y hx, hnx⟩
        · rintro ⟨hx, hnx⟩
          rcases List.mem_cons.mp hx with rfl | hx
          · exact absurd hy hnx
          · exact ⟨hx, hnx⟩
      · rw [dedupAux, if_neg hy]
        constructor
        · intro hx
          rcases List.mem_cons.mp hx with rfl | hx
          · exact ⟨List.mem_cons_self x ys, hy⟩
          · rcases (ih (y :: seen)).mp hx with ⟨h1, h2⟩
            exact ⟨List.mem_cons_of_mem y h1,
              fun hc => h2 (List.mem_cons_of_mem y hc)⟩
        · rintro ⟨hx, hns⟩
          by_cases hxy : x = y
          · subst hxy
            exact List.mem_cons_self x _
          · rcases List.mem_cons.mp hx with rfl | hx
            · exact absurd rfl hxy
            · refine List.mem_cons_of_mem y ((ih (y :: seen)).mpr ⟨hx, fun hc => ?_⟩)
              rcases List.mem_cons.mp hc with h | h
              · exact hxy h
              · exact hns h

/-- dedupFirst keeps exactly the elements of the input. -/
theorem mem_dedupFirst (l : List String) (x : String) :
    x ∈ dedupFirst l ↔ x ∈ l := by
  simp [dedupFirst, mem_dedupAux]

/-- Forward fill with a present carry leaves no missing cell. -/
theorem ffill_some_carry (c : List (Option ℚ)) (v : ℚ) :
    ∀ y ∈ ffillCol (some v) c, y.isSome = true := by
  induction c generalizing v with
  | nil => simp [ffillCol]
  | cons x xs ih =>
      cases x with
      | none =>
          intro y hy
          rcases List.mem_cons.mp hy with rfl | hy
          · rfl
          · exact ih v y hy
      | some a =>
          intro y hy
          rcases List.mem_cons.mp hy with rfl | hy
          · rfl
          · exact ih a y hy

/-- The last cell of a cons with a nonempty tail is the last of the tail. -/
theorem getLast?_cons_ne (a : Option ℚ) (l : List (Option ℚ)) (h : l ≠ []) :
    (a :: l).getLast? = l.getLast? := by
  cases l with
  | nil => exact absurd rfl h
  | cons b bs => simp [List.getLast?_cons_cons]

/-- Forward fill never returns the empty list on a cons. -/
theorem ffill_cons_ne (carry : Option ℚ) (x : Option ℚ) (xs : List (Option ℚ)) :
    ffillCol carry (x :: xs) ≠ [] := by
  cases x <;> simp [ffillCol]

/-- After a forward fill of a column holding a value somewhere (or into a
present carry), the final cell is present. -/
theorem ffill_getLast (c : List (Option ℚ)) :
    ∀ carry : Option ℚ,
      (c.any Option.isSome = true ∨ (carry.isSome = true ∧ c ≠ [])) →
      ∃ v, (ffillCol carry c).getLast? = some (some v) := by
  induction c with
  | nil =>
      intro carry h
      rcases h with h | ⟨_, h⟩
      · simp at h
      · exact absurd rfl h
  | cons x xs ih =>
      intro carry h
      cases xs with
      | nil =>
          cases x with
          | some a => exact ⟨a, by simp [ffillCol]⟩
          | none =>
              rcases h with h | ⟨hc, _⟩
              · simp at h
              · cases carry with
                | none => simp at hc
                | some v => exact ⟨v, by simp [ffillCol]⟩
      | cons z zs =>
          cases x with
          | some a =>
              have := ih (some a) (Or.inr ⟨rfl, by simp⟩)
              rcases this with ⟨v, hv⟩
              refine ⟨v, ?_⟩
              rw [show ffillCol carry (some a :: z :: zs)
                    = some a :: ffillCol (some a) (z :: zs) from rfl,
                  getLast?_cons_ne _ _ (ffill_cons_ne _ _ _)]
              exact hv
          | none =>
              have hnext : (z :: zs).any Option.isSome = true ∨
                  (carry.isSome = true ∧ (z :: zs) ≠ []) := by
                rcases h with h | ⟨hc, _⟩
                · left
                  simpa [Option.isSome] using h
                · exact Or.inr ⟨hc, by simp⟩
              rcases ih carry hnext with ⟨v, hv⟩
              refine ⟨v, ?_⟩
              rw [show ffillCol carry (none :: z :: zs)
                    = carry :: ffillCol carry (z :: zs) from rfl,
                  getLast?_cons_ne _ _ (ffill_cons_ne _ _ _)]
              exact hv

/-- ffill then bfill leaves no missing cell in a column holding at least
one value. -/
theorem fill_no_gaps (c : List (Option ℚ)) (h : c.any Option.isSome = true) :
    ∀ y ∈ bfillCol (ffillCol none c), y.isSome = true := by
  have hlast := ffill_getLast c none (Or.inl h)
  rcases hlast with ⟨v, hv⟩
  have hhead : (ffillCol none c).reverse.head? = some (some v) := by
    rw [List.head?_reverse]
    exact hv
  intro y hy
  unfold bfillCol at hy
  rw [List.mem_reverse] at hy
  cases hrev : (ffillCol none c).reverse with
  | nil => rw [hrev] at hhead; simp at hhead
  | cons w ws =>
      rw [hrev] at hhead hy
      have hw : w = some v := by simpa using hhead
      subst hw
      have : ffillCol none (some v :: ws) = some v :: ffillCol (some v) ws := rfl
      rw [this] at hy
      rcases List.mem_cons.mp hy with rfl | hy
      · rfl
      · exact ffill_some_carry ws v y hy

/-- The fallback step never changes the index. -/
theorem fallbackStep_index (ps : List Purchase) (acc : Frame) (t : String) :
    (fallbackStep ps acc t).index = acc.index := by
  by_cases hmem : (acc.series.any (fun nc => nc.1 = t)) = true
  · simp [fallbackStep, hmem]
  · cases hf : ps.find? (fun p => p.ticker = t) with
    | none => simp [fallbackStep, hmem, hf]
    | some pu => simp [fallbackStep, hmem, hf]

/-- The fallback step either keeps the columns or appends one constant
column for the processed ticker. -/
theorem fallbackStep_series (ps : List Purchase) (acc : Frame) (t : String) :
    (fallbackStep ps acc t).series = acc.series ∨
      ∃ pu, ps.find? (fun p => p.ticker = t) = some pu ∧
        (fallbackStep ps acc t).series
          = acc.series ++ [(t, acc.index.map (fun _ => some pu.price))] := by
  by_cases hmem : (acc.series.any (fun nc => nc.1 = t)) = true
  · left
    simp [fallbackStep, hmem]
  · cases hf : ps.find? (fun p => p.ticker = t) with
    | none =>
        left
        simp [fallbackStep, hmem, hf]
    | some pu =>
        right
        exact ⟨pu, rfl, by simp [fallbackStep, hmem, hf]⟩

/-- The fallback step keeps every existing column. -/
theorem fallbackStep_keeps (ps : List Purchase) (acc : Frame) (t : String)
    (nc : String × List (Option ℚ)) (h : nc ∈ acc.series) :
    nc ∈ (fallbackStep ps acc t).series := by
  rcases fallbackStep_series ps acc t with hs | ⟨pu, _, hs⟩
  · rw [hs]; exact h
  · rw [hs]; exact List.mem_append_left _ h

/-- After processing ticker t present in the ledger, some column is named t. -/
theorem fallbackStep_self (ps : List Purchase) (acc : Frame) (t : String)
    (hfind : (ps.find? (fun p => p.ticker = t)).isSome = true) :
    ∃ c, (t, c) ∈ (fallbackStep ps acc t).series := by
  by_cases hmem : (acc.series.any (fun nc => nc.1 = t)) = true
  · rcases List.any_eq_true.mp hmem with ⟨nc, hnc, h2⟩
    have h3 : nc.1 = t := by simpa using h2
    refine ⟨nc.2, ?_⟩
    have : nc = (t, nc.2) := by
      rcases nc with ⟨n1, n2⟩
      simpa using h3
    rw [← this]
    simp only [fallbackStep, hmem, if_true]
    exact hnc
  · cases hf : ps.find? (fun p => p.ticker = t) with
    | none => rw [hf] at hfind; simp at hfind
    | some pu =>
        refine ⟨acc.index.map (fun _ => some pu.price), ?_⟩
        simp only [fallbackStep, hmem, if_false, Bool.false_eq_true, hf]
        exact List.mem_append_right _ (List.mem_singleton.mpr rfl)

/-- The fold of addFallback never changes the index. -/
theorem addFallback_index (ps : List Purchase) (f : Frame) :
    (addFallback ps f).index = f.index := by
  unfold addFallback
  generalize dedupFirst (ps.map (fun p => p.ticker)) = ts
  induction ts generalizing f with
  | nil => rfl
  | cons t ts ih =>
      rw [List.foldl_cons]
      rw [ih (fallbackStep ps f t)]
      exact fallbackStep_index ps f t

/-- Every column after addFallback is a fetched column or a constant
fallback column over the index. -/
theorem addFallback_cols (ps : List Purchase) (f : Frame) :
    ∀ nc ∈ (addFallback ps f).series,
      nc ∈ f.series ∨
        ∃ t pu, ps.find? (fun p => p.ticker = t) = some pu ∧
          nc = (t, f.index.map (fun _ => some pu.price)) := by
  unfold addFallback
  generalize dedupFirst (ps.map (fun p => p.ticker)) = ts
  suffices h : ∀ (ts : List String) (acc : Frame),
      acc.index = f.index →
      (∀ nc ∈ acc.series, nc ∈ f.series ∨
        ∃ t pu, ps.find? (fun p => p.ticker = t) = some pu ∧
          nc = (t, f.index.map (fun _ => some pu.price))) →
      ∀ nc ∈ (ts.foldl (fallbackStep ps) acc).series,
        nc ∈ f.series ∨
          ∃ t pu, ps.find? (fun p => p.ticker = t) = some pu ∧
            nc = (t, f.index.map (fun _ => some pu.price)) by
    exact h ts f rfl (fun nc hnc => Or.inl hnc)
  intro ts
  induction ts with
  | nil =>
      intro acc hidx hacc nc hnc
      exact hacc nc hnc
  | cons t ts ih =>
      intro acc hidx hacc nc hnc
      rw [List.foldl_cons] at hnc
      refine ih (fallbackStep ps acc t) (by rw [fallbackStep_index, hidx]) ?_ nc hnc
      intro nc2 hnc2
      rcases fallbackStep_series ps acc t with hs | ⟨pu, hpu, hs⟩
      · rw [hs] at hnc2
        exact hacc nc2 hnc2
      · rw [hs] at hnc2
        rcases List.mem_append.mp hnc2 with h2 | h2
        · exact hacc nc2 h2
        · right
          refine ⟨t, pu, hpu, ?_⟩
          rw [hidx] at h2
          simpa using h2

/-- Every ticker of the ledger owns a column after addFallback. -/
theorem addFallback_mem (ps : List Purchase) (f : Frame) (t : String)
    (ht : ∃ p ∈ ps, p.ticker = t) :
    ∃ c, (t, c) ∈ (addFallback ps f).series := by
  unfold addFallback
  have htd : t ∈ dedupFirst (ps.map (fun p => p.ticker)) := by
    rw [mem_dedupFirst]
    rcases ht with ⟨p, hp, rfl⟩
    exact List.mem_map_of_mem (fun p => p.ticker) hp
  have hfind : (ps.find? (fun p => p.ticker = t)).isSome = true := by
    rw [List.find?_isSome]
    rcases ht with ⟨p, hp, rfl⟩
    exact ⟨p, hp, by simp⟩
  generalize hts : dedupFirst (ps.map (fun p => p.ticker)) = ts at htd
  clear hts
  suffices h : ∀ (ts : List String) (acc : Frame),
      (t ∈ ts ∨ ∃ c, (t, c) ∈ acc.series) →
      ∃ c, (t, c) ∈ (ts.foldl (fallbackStep ps) acc).series by
    exact h ts f (Or.inl htd)
  intro ts
  induction ts with
  | nil =>
      rintro acc (h | h)
      · exact absurd h (List.not_mem_nil t)
      · exact h
  | cons u ts ih =>
      rintro acc hin
      rw [List.foldl_cons]
      rcases hin with hin | hin
      · rcases List.mem_cons.mp hin with rfl | hin
        · exact ih _ (Or.inr (fallbackStep_self ps acc t hfind))
        · exact ih _ (Or.inl hin)
      · rcases hin with ⟨c, hc⟩
        exact ih _ (Or.inr ⟨c, fallbackStep_keeps ps acc u (t, c) hc⟩)

/-- Columns of fillFrame come from columns of the input frame. -/
theorem fillFrame_cols (f : Frame) :
    ∀ nc ∈ (fillFrame f).series,
      ∃ c0, (nc.1, c0) ∈ f.series ∧ nc.2 = bfillCol (ffillCol none c0) := by
  intro nc hnc
  rcases List.mem_map.mp hnc with ⟨nc0, hnc0, rfl⟩
  exact ⟨nc0.2, by simpa using hnc0, rfl⟩

/-- Membership version: fillFrame transforms each column in place. -/
theorem fillFrame_mem (f : Frame) (t : String) (c : List (Option ℚ))
    (h : (t, c) ∈ f.series) :
    (t, bfillCol (ffillCol none c)) ∈ (fillFrame f).series :=
  List.mem_map.mpr ⟨(t, c), h, rfl⟩

/-- Cells of a weekday-filtered column are cells of the original column. -/
theorem filterWeekdays_cols (f : Frame) :
    ∀ nc ∈ (filterWeekdays f).series,
      ∃ c0, (nc.1, c0) ∈ f.series ∧ ∀ y ∈ nc.2, y ∈ c0 := by
  intro nc hnc
  rcases List.mem_map.mp hnc with ⟨nc0, hnc0, rfl⟩
  refine ⟨nc0.2, by simpa using hnc0, ?_⟩
  intro y hy
  rcases List.mem_map.mp hy with ⟨pr, hpr, rfl⟩
  have hz := List.mem_filter.mp hpr
  exact (List.of_mem_zip hz.1).2

/-- Membership version: filterWeekdays keeps every column name. -/
theorem filterWeekdays_mem (f : Frame) (t : String) (c : List (Option ℚ))
    (h : (t, c) ∈ f.series) :
    (t, ((f.index.zip c).filter (fun pr => pr.1 % 7 < 5)).map Prod.snd)
      ∈ (filterWeekdays f).series :=
  List.mem_map.mpr ⟨(t, c), h, rfl⟩

/-- The kept rows of the anchoring step all carry positive invested value,
and the output is the synthetic inception row followed by the kept rows
with the cumulative-returns column attached. -/
theorem anchorNav_eq (nav : List NavPoint) (q : NavPoint) (rest : List NavPoint)
    (h : nav.filter (fun p => 0 < p.invested) = q :: rest) :
    anchorNav nav =
      ⟨q.date, q.invested, q.invested, 0⟩ ::
        (q :: rest).map
          (fun p => ⟨p.date, p.nav, p.invested, (p.nav - p.invested) / p.invested⟩) := by
  have hq : 0 < q.invested := by
    have : q ∈ nav.filter (fun p => 0 < p.invested) := by
      rw [h]
      exact List.mem_cons_self q rest
    simpa using (List.mem_filter.mp this).2
  unfold anchorNav
  rw [h]
  simp [sub_self, zero_div]

/-- Forward fill leaves a constant present column unchanged. -/
theorem ffill_const (idx : List Nat) (v : ℚ) (carry : Option ℚ) :
    ffillCol carry (idx.map (fun _ => some v)) = idx.map (fun _ => some v) := by
  induction idx generalizing carry with
  | nil => rfl
  | cons d ds ih => simpa [ffillCol] using ih (some v)

/-- Backward fill leaves a constant present column unchanged. -/
theorem bfill_const (idx : List Nat) (v : ℚ) :
    bfillCol (idx.map (fun _ => some v)) = idx.map (fun _ => some v) := by
  unfold bfillCol
  rw [← List.map_reverse, ffill_const, List.map_reverse, List.reverse_reverse]

/-- Every business day of the fallback calendar is a weekday. -/
theorem bdays_weekday (s e : Nat) : ∀ d ∈ bdays s e, d % 7 < 5 := by
  intro d hd
  have := (List.mem_filter.mp hd).2
  simpa using this

/-- Filtering the fallback calendar by weekdays is the identity. -/
theorem bdays_filter_self (s e : Nat) :
    (bdays s e).filter (fun d => d % 7 < 5) = bdays s e := by
  apply List.filter_eq_self.mpr
  intro d hd
  simpa using bdays_weekday s e d hd

/-- The weekday filter keeps a constant column over a weekday index whole. -/
theorem zip_const_filter (idx : List Nat) (v : ℚ)
    (h : ∀ d ∈ idx, d % 7 < 5) :
    ((idx.zip (idx.map (fun _ => some v))).filter (fun pr => pr.1 % 7 < 5)).map Prod.snd
      = idx.map (fun _ => some v) := by
  induction idx with
  | nil => rfl
  | cons d ds ih =>
      have hd : d % 7 < 5 := h d (List.mem_cons_self d ds)
      have ihd := ih (fun x hx => h x (List.mem_cons_of_mem d hx))
      simp only [List.map_cons, List.zip_cons_cons, List.filter_cons]
      rw [if_pos (by simpa using hd)]
      simpa using ihd

/-- fillFrame does not change the index. -/
theorem fillFrame_index (f : Frame) : (fillFrame f).index = f.index := rfl

/-- filterWeekdays filters the index by weekdays. -/
theorem filterWeekdays_index (f : Frame) :
    (filterWeekdays f).index = f.index.filter (fun d => d % 7 < 5) := rfl

/-- renameFrame does not change the index. -/
theorem renameFrame_index (f : Frame) : (renameFrame f).index = f.index := rfl

/-- Renamed columns keep their cells. -/
theorem renameFrame_cols (f : Frame) :
    ∀ nc ∈ (renameFrame f).series, ∃ nc0 ∈ f.series, nc.2 = nc0.2 := by
  intro nc hnc
  rcases List.mem_map.mp hnc with ⟨nc0, hnc0, rfl⟩
  exact ⟨nc0, hnc0, rfl⟩

/-- Finding the GOLD column after the rename is finding the GC=F column
before it, when no column was already named GOLD. -/
theorem find?_renameFrame (s : List (String × List (Option ℚ)))
    (hng : ∀ nc ∈ s, nc.1 ≠ "GOLD") :
    (s.map (fun nc => (if nc.1 = "GC=F" then "GOLD" else nc.1, nc.2))).find?
        (fun nc => nc.1 = "GOLD")
      = (s.find? (fun nc => nc.1 = "GC=F")).map (fun nc => ("GOLD", nc.2)) := by
  induction s with
  | nil => rfl
  | cons nc rest ih =>
      by_cases h : nc.1 = "GC=F"
      · simp [List.find?_cons, h]
      · have hg : nc.1 ≠ "GOLD" := hng nc (List.mem_cons_self nc rest)
        have iht := ih (fun nc2 h2 => hng nc2 (List.mem_cons_of_mem nc h2))
        simpa [List.find?_cons, h, hg] using iht

/-- Pricing the renamed GOLD column reads the original GC=F column. -/
theorem colPrice_rename (f : Frame)
    (hng : ∀ nc ∈ f.series, nc.1 ≠ "GOLD") (i : Nat) :
    colPrice (renameFrame f) "GOLD" i = colPrice f "GC=F" i := by
  unfold colPrice renameFrame
  simp only
  rw [find?_renameFrame f.series hng]
  cases h : f.series.find? (fun nc => nc.1 = "GC=F") <;> simp

/-- A ticker of the ledger with a present latest price appears in the
holdings snapshot. -/
theorem holdings_ticker_mem (ps : List Purchase) (f : Frame) (t : String) (v : ℚ)
    (ht : t ∈ ps.map (fun p => p.ticker)) (hv : colLast f t = some v) :
    ∃ h ∈ holdingsSnapshot ps f, h.ticker = t := by
  have htd : t ∈ dedupFirst (ps.map (fun p => p.ticker)) := (mem_dedupFirst _ t).mpr ht
  have hpre : (⟨t, ((ps.filter (fun p => p.ticker = t)).map (fun p => p.amount)).sum, v,
      ((ps.filter (fun p => p.ticker = t)).map (fun p => p.amount)).sum * v,
      ((ps.filter (fun p => p.ticker = t)).map (fun p => p.amount * p.price)).sum⟩ : PreHolding)
      ∈ preHoldings ps f := by
    unfold preHoldings
    refine List.mem_filterMap.mpr ⟨t, htd, ?_⟩
    simp [hv]
  unfold holdingsSnapshot
  refine ⟨_, List.mem_map.mpr ⟨_, hpre, rfl⟩, rfl⟩

/-- A ticker with no latest price is excluded from the snapshot. -/
theorem holdings_exclude (ps : List Purchase) (f : Frame) (t : String)
    (hnone : colLast f t = none) :
    ∀ h ∈ holdingsSnapshot ps f, h.ticker ≠ t := by
  intro h hh
  unfold holdingsSnapshot at hh
  rcases List.mem_map.mp hh with ⟨h0, hh0, rfl⟩
  unfold preHoldings at hh0
  rcases List.mem_filterMap.mp hh0 with ⟨t0, ht0, hfn⟩
  cases hc : colLast f t0 with
  | none => rw [hc] at hfn; simp at hfn
  | some cp =>
      rw [hc] at hfn
      simp only [Option.some.injEq] at hfn
      intro hcontra
      simp only at hcontra
      have hticker : h0.ticker = t0 := by rw [← hfn]
      rw [hticker] at hcontra
      rw [hcontra] at hc
      rw [hnone] at hc
      exact Option.noConfusion hc

/-- Multiplying each mapped term by a constant scales the sum. -/
theorem sum_map_mul_const (l : List PreHolding) (g : PreHolding → ℚ) (c : ℚ) :
    (l.map (fun x => g x * c)).sum = (l.map g).sum * c := by
  induction l with
  | nil => simp
  | cons x xs ih => simp [ih, add_mul]

/-- The market values of the snapshot are those of the grouped rows. -/
theorem holdings_mv_eq (ps : List Purchase) (f : Frame) :
    (holdingsSnapshot ps f).map (fun h => h.market_value)
      = (preHoldings ps f).map (fun h => h.market_value) := by
  unfold holdingsSnapshot
  rw [List.map_map]
  rfl

/-- Weights sum to exactly 100 whenever the total market value is nonzero. -/
theorem holdings_weights_sum (ps : List Purchase) (f : Frame)
    (hT : ((preHoldings ps f).map (fun h => h.market_value)).sum ≠ 0) :
    ((holdingsSnapshot ps f).map (fun h => h.weight)).sum = 100 := by
  unfold holdingsSnapshot
  rw [List.map_map]
  have hcomp : ((fun h : Holding => h.weight) ∘
      (fun h : PreHolding =>
        ({ ticker := h.ticker, amount := h.amount, current_price := h.current_price,
           market_value := h.market_value, cost_basis_total := h.cost_basis_total,
           avg_entry_price := h.cost_basis_total / h.amount,
           weight := h.market_value / ((preHoldings ps f).map (fun h => h.market_value)).sum * 100,
           unrealized_pnl := h.market_value - h.cost_basis_total,
           return_pct := round2 ((h.market_value - h.cost_basis_total) / h.cost_basis_total * 100) } : Holding)))
      = fun h : PreHolding =>
          h.market_value * (((preHoldings ps f).map (fun h => h.market_value)).sum⁻¹ * 100) := by
    funext h
    simp [Function.comp, div_eq_mul_inv, mul_assoc]
  rw [hcomp, sum_map_mul_const, ← mul_assoc, mul_inv_cancel₀ hT, one_mul]

/-- In the empty-feed path, the resolved series is the business-day
calendar with one constant column per referenced ticker, at the first
recorded purchase price of the ticker. -/
theorem resolve_empty_feed (ps : List Purchase) (today : Nat) (fetched : Option Frame)
    (hemp : match fetched with
      | none => True
      | some f => isEmptyFrame f = true) :
    (resolveSeries ps today fetched).index = bdays (firstPurchase ps) today ∧
    ∀ nc ∈ (resolveSeries ps today fetched).series,
      ∃ pu, (renamePurchases ps).find? (fun p => p.ticker = nc.1) = some pu ∧
        nc.2 = (bdays (firstPurchase ps) today).map (fun _ => some pu.price) := by
  have hres : resolveSeries ps today fetched
      = filterWeekdays (fillFrame (addFallback (renamePurchases ps)
          (renameFrame ⟨bdays (firstPurchase ps) today, []⟩))) := by
    cases fetched with
    | none => rfl
    | some f =>
        have : isEmptyFrame f = true := hemp
        unfold resolveSeries
        simp only [this, if_true]
  have hrename : renameFrame (⟨bdays (firstPurchase ps) today, []⟩ : Frame)
      = ⟨bdays (firstPurchase ps) today, []⟩ := rfl
  rw [hres, hrename]
  set B := bdays (firstPurchase ps) today with hB
  set ps2 := renamePurchases ps with hps2
  have hafidx : (addFallback ps2 (⟨B, []⟩ : Frame)).index = B :=
    addFallback_index ps2 ⟨B, []⟩
  constructor
  · rw [filterWeekdays_index, fillFrame_index, hafidx, hB]
    exact bdays_filter_self _ _
  · intro nc hnc
    rcases List.mem_map.mp hnc with ⟨nc1, hnc1, rfl⟩
    rcases List.mem_map.mp hnc1 with ⟨nc2, hnc2, rfl⟩
    rcases addFallback_cols ps2 ⟨B, []⟩ nc2 hnc2 with h2 | ⟨t, pu, hpu, rfl⟩
    · exact absurd h2 (List.not_mem_nil nc2)
    · refine ⟨pu, hpu, ?_⟩
      simp only
      rw [ffill_const, bfill_const, fillFrame_index, hafidx]
      exact zip_const_filter B pu.price (bdays_weekday _ _)

/-- In the empty-feed path every referenced ticker prices at its first
recorded purchase price on every row of the business-day calendar. -/
theorem resolve_empty_colPrice (ps : List Purchase) (today : Nat) (fetched : Option Frame)
    (hemp : match fetched with
      | none => True
      | some f => isEmptyFrame f = true)
    (t : String) (ht : t ∈ (renamePurchases ps).map (fun p => p.ticker)) :
    ∃ pu, (renamePurchases ps).find? (fun p => p.ticker = t) = some pu ∧
      ∀ i, i < (bdays (firstPurchase ps) today).length →
        colPrice (resolveSeries ps today fetched) t i = some pu.price := by
  have hres : resolveSeries ps today fetched
      = filterWeekdays (fillFrame (addFallback (renamePurchases ps)
          (renameFrame ⟨bdays (firstPurchase ps) today, []⟩))) := by
    cases fetched with
    | none => rfl
    | some f =>
        have : isEmptyFrame f = true := hemp
        unfold resolveSeries
        simp only [this, if_true]
  have hp : ∃ p ∈ renamePurchases ps, p.ticker = t := by
    rcases List.mem_map.mp ht with ⟨p, hp, rfl⟩
    exact ⟨p, hp, rfl⟩
  rcases addFallback_mem (renamePurchases ps)
      (renameFrame ⟨bdays (firstPurchase ps) today, []⟩) t hp with ⟨c, hc⟩
  have hc2 := fillFrame_mem _ t c hc
  have hc3 := filterWeekdays_mem _ t _ hc2
  rw [← hres] at hc3
  have hfind : ((resolveSeries ps today fetched).series.find?
      (fun nc => nc.1 = t)).isSome = true := by
    rw [List.find?_isSome]
    exact ⟨_, hc3, by simp⟩
  cases hf : (resolveSeries ps today fetched).series.find? (fun nc => nc.1 = t) with
  | none => rw [hf] at hfind; simp at hfind
  | some nc =>
      have hmem := List.mem_of_find?_eq_some hf
      have hname : nc.1 = t := by
        have := List.find?_some hf
        simpa using this
      rcases (resolve_empty_feed ps today fetched hemp).2 nc hmem with ⟨pu, hpu, hcol⟩
      rw [hname] at hpu
      refine ⟨pu, hpu, ?_⟩
      intro i hi
      unfold colPrice
      rw [hf]
      show nc.2.getD i none = some pu.price
      rw [hcol, List.getD_eq_getElem?_getD, List.getElem?_map,
        List.getElem?_eq_getElem hi]
      rfl

/-- navPointAt always reports invested as the sum over active purchases. -/
theorem navPointAt_invested (ps : List Purchase) (f : Frame) (i d : Nat) :
    (navPointAt ps f i d).invested
      = ((ps.filter (fun p => p.bought_on ≤ d)).map (fun p => p.price * p.amount)).sum := by
  unfold navPointAt
  by_cases h : ps.filter (fun p => p.bought_on ≤ d) = []
  · simp [h]
  · rw [if_neg h]

/-! Claim theorems. -/

/-- Claim C1: for every date D in the resolved price series index, NAV
Reconstruction emits one NavPoint whose nav sums price times quantity over
the active purchases with a present price cell (missing or NaN prices
contribute zero), whose invested sums unit price times quantity over all
active purchases, and which is all zero when no purchase is active. -/
theorem nav_reconstruction_pointwise (ps : List Purchase) (f : Frame) :
    (navSeries ps f).length = f.index.length ∧
    ∀ i d, f.index[i]? = some d →
      ((navSeries ps f)[i]? = some
        (NavPoint.mk d
         ((((ps.filter (fun p => p.bought_on ≤ d)).filter
             (fun p => (colPrice f p.ticker i).isSome)).map
             (fun p => (colPrice f p.ticker i).getD 0 * p.amount)).sum)
         (((ps.filter (fun p => p.bought_on ≤ d)).map
             (fun p => p.price * p.amount)).sum)) ∧
       (ps.filter (fun p => p.bought_on ≤ d) = [] →
         (navSeries ps f)[i]? = some (NavPoint.mk d 0 0))) := by
  constructor
  · unfold navSeries
    rw [List.length_map, List.enum_length]
  · intro i d hd
    have hnth : (navSeries ps f)[i]? = some (navPointAt ps f i d) := by
      unfold navSeries
      rw [List.getElem?_map, List.getElem?_enum, hd]
      rfl
    have hval : navPointAt ps f i d =
        NavPoint.mk d
         ((((ps.filter (fun p => p.bought_on ≤ d)).filter
             (fun p => (colPrice f p.ticker i).isSome)).map
             (fun p => (colPrice f p.ticker i).getD 0 * p.amount)).sum)
         (((ps.filter (fun p => p.bought_on ≤ d)).map
             (fun p => p.price * p.amount)).sum) := by
      unfold navPointAt
      by_cases h : ps.filter (fun p => p.bought_on ≤ d) = []
      · rw [if_pos h, h]
        simp
      · rw [if_neg h]
        have hm := sum_match_eq_filter (ps.filter (fun p => p.bought_on ≤ d))
          (fun p => colPrice f p.ticker i)
        have : (List.map (fun p =>
            match colPrice f p.ticker i with
            | some pr => pr * p.amount
            | none => 0) (ps.filter (fun p => p.bought_on ≤ d))).sum
            = ((((ps.filter (fun p => p.bought_on ≤ d)).filter
                (fun p => (colPrice f p.ticker i).isSome)).map
                (fun p => (colPrice f p.ticker i).getD 0 * p.amount)).sum) := hm
        rw [NavPoint.mk.injEq]
        exact ⟨rfl, this, rfl⟩
    refine ⟨by rw [hnth, hval], fun hempty => ?_⟩
    rw [hnth]
    unfold navPointAt
    rw [if_pos hempty]

/-- Claim C1 witness: a concrete date with one active purchase. -/
theorem nav_reconstruction_pointwise_witness :
    (navSeries [⟨"A", 2, 3, 1⟩] ⟨[1], [("A", [some 5])]⟩)[0]? = some ⟨1, 10, 6⟩ := by
  have h := ((nav_reconstruction_pointwise [⟨"A", 2, 3, 1⟩]
      ⟨[1], [("A", [some 5])]⟩).2 0 1 rfl).1
  rw [h]
  norm_num +decide [colPrice, List.filter_cons]

/-- Claim C9: the invested value reported by the valuation loop is
monotone in the date when all quantities and prices are nonnegative,
because the set of active purchases only grows with the date. -/
theorem invested_monotone (ps : List Purchase) (f : Frame) (i j d1 d2 : Nat)
    (hq : ∀ p ∈ ps, 0 ≤ p.amount) (hp : ∀ p ∈ ps, 0 ≤ p.price) (hd : d1 ≤ d2) :
    (navPointAt ps f i d1).invested ≤ (navPointAt ps f j d2).invested := by
  rw [navPointAt_invested, navPointAt_invested]
  refine sum_filter_mono ps _ _ _ (fun x hx => mul_nonneg (hp x hx) (hq x hx)) ?_
  intro x hx
  have h1 : x.bought_on ≤ d1 := by simpa using hx
  simpa using h1.trans hd

/-- Claim C9 witness: two concrete dates around one purchase. -/
theorem invested_monotone_witness :
    (navPointAt [⟨"A", 2, 3, 1⟩] ⟨[0, 1], [("A", [some 5, some 5])]⟩ 0 0).invested
      ≤ (navPointAt [⟨"A", 2, 3, 1⟩] ⟨[0, 1], [("A", [some 5, some 5])]⟩ 1 1).invested := by
  refine invested_monotone [⟨"A", 2, 3, 1⟩] ⟨[0, 1], [("A", [some 5, some 5])]⟩ 0 1 0 1
    ?_ ?_ (by norm_num)
  · intro p hp
    rcases List.mem_singleton.mp hp with rfl
    norm_num
  · intro p hp
    rcases List.mem_singleton.mp hp with rfl
    norm_num

/-- Claim C2: after trimming, the anchored series starts with the
synthetic inception row whose nav and invested equal the invested amount
of the first row with positive invested value and whose cumulative return
is exactly zero; every emitted row has positive invested value, and the
whole output is the inception row followed by the kept rows. -/
theorem anchor_inception_zero_return (nav : List NavPoint) (q : NavPoint)
    (rest : List NavPoint)
    (h : nav.filter (fun p => 0 < p.invested) = q :: rest) :
    (anchorNav nav).head? = some ⟨q.date, q.invested, q.invested, 0⟩ ∧
    (∀ r ∈ anchorNav nav, 0 < r.invested) ∧
    anchorNav nav = ⟨q.date, q.invested, q.invested, 0⟩ ::
      (q :: rest).map
        (fun p => ⟨p.date, p.nav, p.invested, (p.nav - p.invested) / p.invested⟩) := by
  have heq := anchorNav_eq nav q rest h
  refine ⟨by rw [heq]; rfl, ?_, heq⟩
  intro r hr
  rw [heq] at hr
  have hpos : ∀ x ∈ q :: rest, 0 < x.invested := by
    intro x hx
    have : x ∈ nav.filter (fun p => 0 < p.invested) := by rw [h]; exact hx
    simpa using (List.mem_filter.mp this).2
  rcases List.mem_cons.mp hr with rfl | hr
  · exact hpos q (List.mem_cons_self q rest)
  · rcases List.mem_map.mp hr with ⟨p, hmem, rfl⟩
    exact hpos p hmem

/-- Claim C2 witness: the flat-price scenario, a single purchase of
quantity 10 at price 100 with the feed flat at 100: every anchored row has
nav = invested = 1000 and cumulative return 0. -/
theorem anchor_inception_zero_return_witness :
    anchorNav (navSeries (renamePurchases [⟨"AAA", 10, 100, 1⟩])
        (resolveSeries [⟨"AAA", 10, 100, 1⟩] 9
          (some ⟨[1, 2, 3, 4, 7, 8, 9],
            [("AAA", [some 100, some 100, some 100, some 100, some 100, some 100,
              some 100])]⟩)))
      = [⟨1, 1000, 1000, 0⟩, ⟨1, 1000, 1000, 0⟩, ⟨2, 1000, 1000, 0⟩,
         ⟨3, 1000, 1000, 0⟩, ⟨4, 1000, 1000, 0⟩, ⟨7, 1000, 1000, 0⟩,
         ⟨8, 1000, 1000, 0⟩, ⟨9, 1000, 1000, 0⟩] := by
  have h := anchor_inception_zero_return
    (navSeries (renamePurchases [⟨"AAA", 10, 100, 1⟩])
      (resolveSeries [⟨"AAA", 10, 100, 1⟩] 9
        (some ⟨[1, 2, 3, 4, 7, 8, 9],
          [("AAA", [some 100, some 100, some 100, some 100, some 100, some 100,
            some 100])]⟩)))
    ⟨1, 1000, 1000⟩
    [⟨2, 1000, 1000⟩, ⟨3, 1000, 1000⟩, ⟨4, 1000, 1000⟩, ⟨7, 1000, 1000⟩,
     ⟨8, 1000, 1000⟩, ⟨9, 1000, 1000⟩]
    (by norm_num +decide [navSeries, navPointAt, colPrice, resolveSeries, isEmptyFrame,
      firstPurchase, bdays, renameFrame, renamePurchases, dedupFirst, dedupAux,
      addFallback, fallbackStep, ffillCol, bfillCol, fillFrame, filterWeekdays,
      List.range, List.range.loop, List.enum, List.enumFrom, List.filter_cons])
  rw [h.2.2]
  norm_num

/-- Claim C10 counterexample: with a flat price equal to the purchase
price, the second point of the anchored output (the first real-activity
row) also has nav equal to invested, so it is not the case that only the
first of the two duplicated points has nav equal to invested. -/
theorem anchor_duplicate_counterexample :
    anchorNav (navSeries (renamePurchases [⟨"BBB", 2, 50, 1⟩])
        (resolveSeries [⟨"BBB", 2, 50, 1⟩] 2
          (some ⟨[1, 2], [("BBB", [some 50, some 50])]⟩)))
      = [⟨1, 100, 100, 0⟩, ⟨1, 100, 100, 0⟩, ⟨2, 100, 100, 0⟩] := by
  norm_num +decide [anchorNav, navSeries, navPointAt, colPrice, resolveSeries,
    isEmptyFrame, firstPurchase, bdays, renameFrame, renamePurchases, dedupFirst,
    dedupAux, addFallback, fallbackStep, ffillCol, bfillCol, fillFrame,
    filterWeekdays, List.range, List.range.loop, List.enum, List.enumFrom,
    List.filter_cons]

/-- Claim C10 as amended: the anchored output begins with two points that
carry the same date, the first of them (the synthetic inception point) has
nav equal to invested, and when the input dates are non-decreasing so are
the output dates; the second duplicated point may or may not have nav
equal to invested. -/
theorem anchor_duplicate_date (nav : List NavPoint) (q : NavPoint)
    (rest : List NavPoint)
    (h : nav.filter (fun p => 0 < p.invested) = q :: rest) :
    ((anchorNav nav)[0]?).map (fun r => r.date) = some q.date ∧
    ((anchorNav nav)[1]?).map (fun r => r.date) = some q.date ∧
    (anchorNav nav)[0]? = some ⟨q.date, q.invested, q.invested, 0⟩ ∧
    (List.Pairwise (fun a b : NavPoint => a.date ≤ b.date) nav →
      List.Pairwise (fun a b : NavPointR => a.date ≤ b.date) (anchorNav nav)) := by
  have heq := anchorNav_eq nav q rest h
  refine ⟨by rw [heq]; rfl,
    by rw [heq, List.map_cons]; simp [List.getElem?_cons_succ, List.getElem?_cons_zero],
    by rw [heq]; rfl, ?_⟩
  intro hsort
  rw [heq]
  have hfil : (nav.filter (fun p => 0 < p.invested)).Pairwise
      (fun a b : NavPoint => a.date ≤ b.date) :=
    hsort.sublist (List.filter_sublist nav)
  rw [h] at hfil
  constructor
  · intro r hr
    rcases List.mem_map.mp hr with ⟨p, hmem, rfl⟩
    show q.date ≤ p.date
    rcases List.mem_cons.mp hmem with rfl | hmem
    · exact le_refl _
    · exact List.rel_of_pairwise_cons hfil hmem
  · rw [List.pairwise_map]
    exact hfil

/-- Claim C10 witness for the amended statement: a concrete two-day input. -/
theorem anchor_duplicate_date_witness :
    ((anchorNav [⟨1, 7, 4⟩, ⟨2, 9, 4⟩])[0]?).map (fun r => r.date) = some 1 ∧
    (anchorNav [⟨1, 7, 4⟩, ⟨2, 9, 4⟩])[0]? = some ⟨1, 4, 4, 0⟩ := by
  have h := anchor_duplicate_date [⟨1, 7, 4⟩, ⟨2, 9, 4⟩] ⟨1, 7, 4⟩ [⟨2, 9, 4⟩]
    (by norm_num [List.filter_cons])
  exact ⟨h.1, h.2.2.1⟩

/-- Claim C5 counterexample: ingestion keeps the file order of an unsorted
ledger (dates 5 then 2), keeps a whitespace ticker that trims to the empty
string, and accepts a record with negative quantity and zero price. -/
theorem ingest_unsorted_counterexample :
    (ingestPurchases [⟨" ", -5, 0, 5⟩, ⟨"A", 1, 1, 2⟩]).map
        (fun l => l.map (fun r => (r.ticker, r.bought_on)))
      = some [("", 5), ("A", 2)] ∧
    (ingestPurchases [⟨"A", -5, 0, 5⟩]).isSome = true := by
  constructor
  · decide
  · decide

/-- Claim C5 as amended: ingestion rejects only the empty table and
otherwise returns the records in their original order with tickers
stripped of surrounding whitespace; no sorting and no positivity or
non-emptiness validation is performed. -/
theorem ingest_trims_preserves_order (raw : List Purchase) (hne : raw ≠ []) :
    ingestPurchases raw
      = some (raw.map (fun r => { r with ticker := stripStr r.ticker })) := by
  unfold ingestPurchases
  rw [if_neg hne]

/-- Claim C5 witness: one concrete record passes through with its date. -/
theorem ingest_trims_preserves_order_witness :
    (ingestPurchases [⟨" A ", 1, 1, 2⟩]).map
        (fun l => l.map (fun r => (r.ticker, r.bought_on)))
      = some [("A", 2)] := by
  rw [ingest_trims_preserves_order [⟨" A ", 1, 1, 2⟩] (by decide)]
  decide

/-- Claim C6 counterexample: one ticker with a present (non-NaN) latest
price of 0 is included in the snapshot, yet the total market value is 0 and
the weights sum to 0, not 100. -/
theorem holdings_weights_counterexample :
    colLast (⟨[0], [("AAA", [some 0])]⟩ : Frame) "AAA" = some 0 ∧
    (holdingsSnapshot [⟨"AAA", 1, 50, 0⟩] ⟨[0], [("AAA", [some 0])]⟩).map
        (fun h => (h.ticker, h.weight)) = [("AAA", 0)] ∧
    ((holdingsSnapshot [⟨"AAA", 1, 50, 0⟩] ⟨[0], [("AAA", [some 0])]⟩).map
        (fun h => h.weight)).sum ≠ 100 := by
  refine ⟨by norm_num [colLast], ?_, ?_⟩
  · norm_num +decide [holdingsSnapshot, preHoldings, colLast, dedupFirst, dedupAux,
      List.filterMap_cons]
  · norm_num +decide [holdingsSnapshot, preHoldings, colLast, dedupFirst, dedupAux,
      List.filterMap_cons]

/-- Claim C6 as amended: a ticker with no present latest price is excluded
from the snapshot entirely, and the weights of the included tickers sum to
exactly 100 whenever the total market value of the included tickers is
nonzero (with a zero total, as with a latest price of 0, the weights are
not defined as percentages). -/
theorem holdings_exclusion_and_weights (ps : List Purchase) (f : Frame) :
    (∀ t, colLast f t = none → ∀ h ∈ holdingsSnapshot ps f, h.ticker ≠ t) ∧
    (((holdingsSnapshot ps f).map (fun h => h.market_value)).sum ≠ 0 →
      ((holdingsSnapshot ps f).map (fun h => h.weight)).sum = 100) := by
  refine ⟨fun t ht => holdings_exclude ps f t ht, fun hT => ?_⟩
  rw [holdings_mv_eq] at hT
  exact holdings_weights_sum ps f hT

/-- Claim C6 witness: one valued ticker with nonzero market value gives
weights summing to 100, and an unpriced ticker is absent. -/
theorem holdings_exclusion_and_weights_witness :
    ((holdingsSnapshot [⟨"AAA", 2, 5, 0⟩] ⟨[0], [("AAA", [some 10])]⟩).map
        (fun h => h.weight)).sum = 100 := by
  apply (holdings_exclusion_and_weights [⟨"AAA", 2, 5, 0⟩]
    ⟨[0], [("AAA", [some 10])]⟩).2
  norm_num +decide [holdingsSnapshot, preHoldings, colLast, dedupFirst, dedupAux,
    List.filterMap_cons]

/-- Claim C7: the GC=F alias is applied to both the ledger and the fetched
columns before the join, so no renamed purchase keeps the feed symbol, a
GC=F purchase becomes a GOLD purchase, the GOLD column of the renamed
table prices exactly as the GC=F column of the fetched table, and a GOLD
holding with a present latest price is emitted rather than dropped. -/
theorem gold_alias_join (ps : List Purchase) (f : Frame) (i : Nat)
    (hGC : ∃ p ∈ ps, p.ticker = "GC=F")
    (hng : ∀ nc ∈ f.series, nc.1 ≠ "GOLD") :
    (∀ p ∈ renamePurchases ps, p.ticker ≠ "GC=F") ∧
    (∃ p ∈ renamePurchases ps, p.ticker = "GOLD") ∧
    colPrice (renameFrame f) "GOLD" i = colPrice f "GC=F" i ∧
    (∀ (g : Frame) (v : ℚ), colLast g "GOLD" = some v →
      ∃ h ∈ holdingsSnapshot (renamePurchases ps) g, h.ticker = "GOLD") := by
  have hmem : ∃ p ∈ renamePurchases ps, p.ticker = "GOLD" := by
    rcases hGC with ⟨p, hp, hpt⟩
    refine ⟨{ p with ticker := if p.ticker = "GC=F" then "GOLD" else p.ticker },
      List.mem_map.mpr ⟨p, hp, rfl⟩, ?_⟩
    simp [hpt]
  refine ⟨?_, hmem, colPrice_rename f hng i, ?_⟩
  · intro p hp
    rcases List.mem_map.mp hp with ⟨p0, _, rfl⟩
    simp only
    by_cases h0 : p0.ticker = "GC=F"
    · rw [if_pos h0]
      decide
    · rw [if_neg h0]
      exact h0
  · intro g v hv
    have ht : "GOLD" ∈ (renamePurchases ps).map (fun p => p.ticker) := by
      rcases hmem with ⟨p, hp, hpt⟩
      rcases List.mem_map.mpr ⟨p, hp, hpt⟩ with h
      exact h
    exact holdings_ticker_mem (renamePurchases ps) g "GOLD" v ht hv

/-- Claim C7 witness: a one-row GC=F ledger against a one-column GC=F
feed prices the purchase from the renamed GOLD column. -/
theorem gold_alias_join_witness :
    colPrice (renameFrame ⟨[0], [("GC=F", [some 3])]⟩) "GOLD" 0
      = colPrice (⟨[0], [("GC=F", [some 3])]⟩ : Frame) "GC=F" 0 := by
  exact (gold_alias_join [⟨"GC=F", 1, 2, 0⟩] ⟨[0], [("GC=F", [some 3])]⟩ 0
    (by decide) (by decide)).2.2.1

/-- After fallback, fill and weekday restriction, a referenced ticker has
a column with no missing cell, provided every base column is either
nonempty in values or empty. -/
theorem pipeline_no_gaps (ps2 : List Purchase) (md2 : Frame) (t : String)
    (ht : ∃ p ∈ ps2, p.ticker = t)
    (hcols : ∀ nc ∈ md2.series, nc.2.any Option.isSome = true ∨ nc.2 = []) :
    ∃ nc ∈ (filterWeekdays (fillFrame (addFallback ps2 md2))).series,
      nc.1 = t ∧ ∀ y ∈ nc.2, y.isSome = true := by
  rcases addFallback_mem ps2 md2 t ht with ⟨c, hc⟩
  have hc2 := fillFrame_mem _ t c hc
  have hc3 := filterWeekdays_mem _ t _ hc2
  refine ⟨_, hc3, rfl, ?_⟩
  intro y hy
  have hy2 : y ∈ bfillCol (ffillCol none c) := by
    rcases List.mem_map.mp hy with ⟨pr, hpr, rfl⟩
    exact (List.of_mem_zip (List.mem_filter.mp hpr).1).2
  have hcase : c.any Option.isSome = true ∨ c = [] := by
    rcases addFallback_cols ps2 md2 (t, c) hc with h | ⟨t2, pu, hpu, heq⟩
    · exact hcols (t, c) h
    · have hceq : c = md2.index.map (fun _ => some pu.price) := by
        have := congrArg Prod.snd heq
        simpa using this
      cases hidx : md2.index with
      | nil =>
          right
          rw [hceq, hidx]
          rfl
      | cons d ds =>
          left
          rw [hceq, hidx]
          simp
  rcases hcase with h | rfl
  · exact fill_no_gaps c h y hy2
  · simp [bfillCol, ffillCol] at hy2

/-- Claim C3 counterexample: a fetched column that is entirely NaN (as a
feed returns for a delisted symbol) survives forward and backward fill,
so the resolved series still has a missing price for a referenced ticker
on a weekday inside the range. -/
theorem resolved_gap_counterexample :
    (resolveSeries [⟨"AAA", 1, 100, 1⟩] 1 (some ⟨[1], [("AAA", [none])]⟩)).index
      = [1] ∧
    colPrice (resolveSeries [⟨"AAA", 1, 100, 1⟩] 1
      (some ⟨[1], [("AAA", [none])]⟩)) "AAA" 0 = none := by
  constructor
  · decide
  · decide

/-- Claim C3 as amended: for every ticker referenced by a purchase, the
resolved series has a column for the renamed ticker with no missing cell,
provided every fetched column holds at least one present value; the dates
covered are the ones the feed returned restricted to weekdays (the full
business-day calendar only in the empty-feed path). -/
theorem resolved_no_gaps (ps : List Purchase) (today : Nat) (fetched : Option Frame)
    (t : String) (ht : t ∈ (renamePurchases ps).map (fun p => p.ticker))
    (hcols : ∀ f0, fetched = some f0 → ∀ nc ∈ f0.series, nc.2.any Option.isSome = true) :
    ∃ nc ∈ (resolveSeries ps today fetched).series,
      nc.1 = t ∧ ∀ y ∈ nc.2, y.isSome = true := by
  have hp : ∃ p ∈ renamePurchases ps, p.ticker = t := by
    rcases List.mem_map.mp ht with ⟨p, hp, rfl⟩
    exact ⟨p, hp, rfl⟩
  cases fetched with
  | none =>
      refine pipeline_no_gaps (renamePurchases ps)
        (renameFrame ⟨bdays (firstPurchase ps) today, []⟩) t hp ?_
      intro nc hnc
      exact absurd hnc (List.not_mem_nil nc)
  | some f0 =>
      by_cases hemp : isEmptyFrame f0 = true
      · have hres : resolveSeries ps today (some f0)
            = filterWeekdays (fillFrame (addFallback (renamePurchases ps)
                (renameFrame ⟨bdays (firstPurchase ps) today, []⟩))) := by
          unfold resolveSeries
          simp only [hemp, if_true]
        rw [hres]
        refine pipeline_no_gaps (renamePurchases ps)
          (renameFrame ⟨bdays (firstPurchase ps) today, []⟩) t hp ?_
        intro nc hnc
        exact absurd hnc (List.not_mem_nil nc)
      · have hres : resolveSeries ps today (some f0)
            = filterWeekdays (fillFrame (addFallback (renamePurchases ps)
                (renameFrame f0))) := by
          unfold resolveSeries
          simp only [hemp, if_false, Bool.false_eq_true]
        rw [hres]
        refine pipeline_no_gaps (renamePurchases ps) (renameFrame f0) t hp ?_
        intro nc hnc
        rcases renameFrame_cols f0 nc hnc with ⟨nc0, hnc0, hval⟩
        left
        rw [hval]
        exact hcols f0 rfl nc0 hnc0

/-- Claim C3 witness: a feed with one present cell resolves gap free. -/
theorem resolved_no_gaps_witness :
    ∃ nc ∈ (resolveSeries [⟨"AAA", 1, 100, 1⟩] 2
        (some ⟨[1, 2], [("AAA", [some 7, none])]⟩)).series,
      nc.1 = "AAA" ∧ ∀ y ∈ nc.2, y.isSome = true := by
  refine resolved_no_gaps [⟨"AAA", 1, 100, 1⟩] 2
    (some ⟨[1, 2], [("AAA", [some 7, none])]⟩) "AAA" (by decide) ?_
  intro f0 hf0 nc hnc
  cases hf0
  rcases List.mem_cons.mp hnc with rfl | hnc
  · decide
  · exact absurd hnc (List.not_mem_nil nc)

/-- Claim C4: when the fetch raises (none) or returns an empty table, the
resolved series is anchored to the business-day calendar of the requested
range, every referenced ticker is priced at its first recorded purchase
price on every business day, and the valuation still completes with a
result whenever the calendar is nonempty. -/
theorem feed_failure_fallback (ps : List Purchase) (today : Nat)
    (fetched : Option Frame) (hne : ps ≠ [])
    (hemp : match fetched with
      | none => True
      | some f => isEmptyFrame f = true) :
    (resolveSeries ps today fetched).index = bdays (firstPurchase ps) today ∧
    (∀ t, t ∈ (renamePurchases ps).map (fun p => p.ticker) →
      ∃ pu, (renamePurchases ps).find? (fun p => p.ticker = t) = some pu ∧
        ∀ i, i < (bdays (firstPurchase ps) today).length →
          colPrice (resolveSeries ps today fetched) t i = some pu.price) ∧
    (bdays (firstPurchase ps) today ≠ [] →
      (getPortfolioData ps today fetched).isSome = true) := by
  have hidx := (resolve_empty_feed ps today fetched hemp).1
  refine ⟨hidx, fun t ht => resolve_empty_colPrice ps today fetched hemp t ht, ?_⟩
  intro hBne
  simp only [getPortfolioData]
  rw [if_neg hne, if_neg (by rw [hidx]; exact hBne)]
  rfl

/-- Claim C4 witness: a one-purchase ledger with a raised fetch still
produces a result over the business-day calendar. -/
theorem feed_failure_fallback_witness :
    (resolveSeries [⟨"AAA", 1, 10, 1⟩] 1 none).index = bdays 1 1 ∧
    (getPortfolioData [⟨"AAA", 1, 10, 1⟩] 1 none).isSome = true := by
  have h := feed_failure_fallback [⟨"AAA", 1, 10, 1⟩] 1 none (by decide) trivial
  exact ⟨h.1, h.2.2 (by decide)⟩

/-- Claim C8: every listed numeric column present in a sheet is coerced to
numbers with missing and non-parsable cells replaced by zero; a win column
holding strings maps YES to 1 and NO to 0 and every other value to 0. -/
theorem static_numeric_coercion (parse : String → Option ℚ) (n : String)
    (cells : List Cell)
    (hn : n ∈ (["netprofit", "equity used", "returns on equity", "leverage used",
      "win", "cumulative returns"] : List String)) :
    (∀ cell ∈ processCol parse n cells, ∃ q, cell = Cell.num q) ∧
    (¬ (n = "win" ∧ isObjectCol cells = true) →
      ∀ i : Nat, ((cells[i]? = some Cell.na → (processCol parse n cells)[i]? = some (Cell.num 0)) ∧
        (∀ s, cells[i]? = some (Cell.str s) → parse s = none →
          (processCol parse n cells)[i]? = some (Cell.num 0)) ∧
        (∀ q, cells[i]? = some (Cell.num q) →
          (processCol parse n cells)[i]? = some (Cell.num q)))) ∧
    ((n = "win" ∧ isObjectCol cells = true) →
      ∀ i : Nat, ((cells[i]? = some (Cell.str "YES") →
          (processCol parse n cells)[i]? = some (Cell.num 1)) ∧
        (cells[i]? = some (Cell.str "NO") →
          (processCol parse n cells)[i]? = some (Cell.num 0)) ∧
        (∀ cell, cells[i]? = some cell → cell ≠ Cell.str "YES" → cell ≠ Cell.str "NO" →
          (processCol parse n cells)[i]? = some (Cell.num 0)))) := by
  have hnum : n ∈ numericCols := by
    simp only [List.mem_cons, List.mem_singleton] at hn
    rcases hn with rfl | rfl | rfl | rfl | rfl | rfl | h
    · decide
    · decide
    · decide
    · decide
    · decide
    · decide
    · exact absurd h (List.not_mem_nil n)
  refine ⟨?_, ?_, ?_⟩
  · intro cell hcell
    unfold processCol at hcell
    rw [if_pos hnum] at hcell
    rcases List.mem_map.mp hcell with ⟨x, _, rfl⟩
    cases x with
    | num q => exact ⟨q, rfl⟩
    | str s2 => exact ⟨(parse s2).getD 0, rfl⟩
    | na => exact ⟨0, rfl⟩
  · intro hnw i
    have hcol : processCol parse n cells = cells.map (coerceCell parse) := by
      unfold processCol
      rw [if_pos hnum]
      have hb : (n = "win" && isObjectCol cells) = false := by
        rcases Bool.eq_false_or_eq_true (isObjectCol cells) with ho | ho
        · have : ¬ n = "win" := fun hc => hnw ⟨hc, ho⟩
          simp [this]
        · simp [ho]
      rw [hb]
      simp
    rw [hcol]
    refine ⟨?_, ?_, ?_⟩
    · intro hna
      rw [List.getElem?_map, hna]
      rfl
    · intro s hs hps
      rw [List.getElem?_map, hs]
      simp [coerceCell, hps]
    · intro q hq
      rw [List.getElem?_map, hq]
      rfl
  · rintro ⟨hw, ho⟩ i
    have hcol : processCol parse n cells = (mapWin cells).map (coerceCell parse) := by
      unfold processCol
      rw [if_pos hnum]
      have hb : (n = "win" && isObjectCol cells) = true := by
        rw [hw, ho]
        rfl
      rw [hb]
      simp
    rw [hcol]
    unfold mapWin
    rw [List.map_map]
    refine ⟨?_, ?_, ?_⟩
    · intro hy
      rw [List.getElem?_map, hy]
      rfl
    · intro hn2
      rw [List.getElem?_map, hn2]
      rfl
    · intro cell hcell hy hn2
      rw [List.getElem?_map, hcell]
      cases cell with
      | num q => rfl
      | na => rfl
      | str s =>
          have hs1 : s ≠ "YES" := fun hc => hy (by rw [hc])
          have hs2 : s ≠ "NO" := fun hc => hn2 (by rw [hc])
          simp [Function.comp, hs1, hs2, coerceCell]

/-- Claim C8 witness: a missing cell of the netprofit column becomes 0. -/
theorem static_numeric_coercion_witness :
    (processCol (fun _ => none) "netprofit" [Cell.na])[0]? = some (Cell.num 0) := by
  exact ((static_numeric_coercion (fun _ => none) "netprofit" [Cell.na]
    (by decide)).2.1 (by decide) 0).1 rfl

end Portfolios
